import Mathlib

/-!
Verification of the crypto price-trend pipeline.

The program fetches daily price samples per coin, normalizes them into a
per-coin series of (date, price) rows, computes trend metrics
(change percentage, volatility, average price) per coin, and filters the
coins with a strictly positive change percentage into recommendations.

Modelling conventions:
these definitions are a shallow embedding of the Python source.
Prices are modelled as rationals (the source uses IEEE doubles; all claims
settled here are about formula structure, thresholds, ordering and
control flow, which are unaffected by rounding). Timestamps are integer
milliseconds; the date bucketing of datetime.fromtimestamp(ts / 1000).date()
is modelled as flooring division by the milliseconds in one day (the
time-zone offset of the host only shifts every bucket uniformly and no
claim depends on the zone). A pandas DataFrame of rows is modelled as the
list of its rows in order; a Python dict is modelled as an association
list in insertion order, keys unique. The pandas call
drop_duplicates(subset=['date'], keep='last') keeps, for every date, the
last row carrying it, and leaves the surviving rows in their original
relative order; it does not sort. In the source, df['price_usd'].iloc[0]
is a numpy float64, and numpy float division by zero returns an infinity
with a runtime warning instead of raising, so analyze_trends has no error
path at all; total division on rationals mirrors that absence of an
error path (only the control flow matters to the claims, never the value
of a division by zero).
-/

namespace Crypto

/-- Number of milliseconds in one day. -/
def msPerDay : Int := 86400000

/-- Date bucket of a millisecond timestamp, embedding
datetime.fromtimestamp(ts / 1000).date() from Crypto.get_prices. -/
def toDate (ts : Int) : Int := ts / msPerDay

/-- Embeds df.drop_duplicates(subset=['date'], keep='last'): a row is kept
exactly when no later row carries the same date, and kept rows stay in
their original relative order. -/
def dedupLast : List (Int × ℚ) → List (Int × ℚ)
  | [] => []
  | e :: rest =>
    if rest.any (fun q => decide (q.1 = e.1)) then dedupLast rest
    else e :: dedupLast rest

/-- The per-coin normalization done inside Crypto.get_prices: convert each
raw (timestamp, price) sample to a (date, price) row, then drop duplicate
dates keeping the last row. -/
def normalize (raw : List (Int × ℚ)) : List (Int × ℚ) :=
  dedupLast (raw.map (fun s => (toDate s.1, s.2)))

/-- Re-running the normalization on an already-normalized series: the
date-conversion step is the identity on already-bucketed rows, so only the
deduplication acts. -/
def normalizeSeries (s : List (Int × ℚ)) : List (Int × ℚ) :=
  dedupLast s

/-- Embeds Crypto.get_prices over a whole batch: each coin maps to either
none (the payload has no prices field, or the request failed) or some raw
sample list. A coin enters prices_data exactly when a payload arrived; its
value is the normalized series (possibly empty). -/
def getPrices (payloads : List (String × Option (List (Int × ℚ)))) :
    List (String × List (Int × ℚ)) :=
  payloads.filterMap (fun e =>
    match e.2 with
    | none => none
    | some raw => some (e.1, normalize raw))

/-- First element of the price column, df['price_usd'].iloc[0]. -/
def firstPrice (prices : List ℚ) : ℚ := prices.headI

/-- Last element of the price column, df['price_usd'].iloc[-1]. -/
def lastPrice (prices : List ℚ) : ℚ := prices.getLastD 0

/-- The change percentage computed in TrendAnalyzer.analyze_trends:
((last_price - first_price) / first_price) * 100. -/
def changePercentage (prices : List ℚ) : ℚ :=
  (lastPrice prices - firstPrice prices) / firstPrice prices * 100

/-- The daily changes list of TrendAnalyzer.analyze_trends:
(price[i] - price[i-1]) / price[i-1] for i = 1 .. len-1. -/
def dailyChanges (prices : List ℚ) : List ℚ :=
  List.zipWith (fun prev cur => (cur - prev) / prev) prices prices.tail

/-- Arithmetic mean of a list, sum / length. -/
def listMean (l : List ℚ) : ℚ := l.sum / l.length

/-- Bessel-corrected sample variance, the square of pandas Series.std()
with its default ddof = 1: the mean of no value is subtracted from each
value, the squares are summed and divided by n - 1. -/
def sampleVar (l : List ℚ) : ℚ :=
  (l.map (fun x => (x - listMean l) ^ 2)).sum / ((l.length : ℚ) - 1)

/-- The volatility of TrendAnalyzer.analyze_trends:
pd.Series(daily_changes).std() when len(daily_changes) > 1, else 0.0.
Series.std is the square root of the Bessel-corrected sample variance. -/
noncomputable def volatility (prices : List ℚ) : ℝ :=
  if 1 < (dailyChanges prices).length then
    Real.sqrt ((sampleVar (dailyChanges prices) : ℚ) : ℝ)
  else 0

/-- The average price of TrendAnalyzer.analyze_trends: mean of the whole
price column. -/
def averagePrice (prices : List ℚ) : ℚ := listMean prices

/-- The per-coin record stored into the trends dict. -/
structure TrendMetrics where
  change_percentage : ℚ
  volatility : ℝ
  average_price : ℚ

/-- The metrics analyze_trends computes for one non-empty price column. -/
noncomputable def analyzeSeries (prices : List ℚ) : TrendMetrics :=
  { change_percentage := changePercentage prices
    volatility := volatility prices
    average_price := averagePrice prices }

/-- Embeds TrendAnalyzer.analyze_trends: iterate over the coins in order,
skip a coin whose DataFrame is empty, otherwise store its metrics. -/
noncomputable def analyzeTrends (priceData : List (String × List (Int × ℚ))) :
    List (String × TrendMetrics) :=
  priceData.filterMap (fun e =>
    if e.2 = [] then none
    else some (e.1, analyzeSeries (e.2.map Prod.snd)))

/-- One entry of the recommendations list built in
Crypto.suggest_investments. -/
structure Recommendation where
  coin : String
  change_percentage : ℚ
  volatility : ℝ
  average_price : ℚ

/-- The filter inside Crypto.suggest_investments: a coin is appended to
recommendations exactly when its trend has change_percentage > 0. -/
noncomputable def suggestInvestments (trends : List (String × TrendMetrics)) :
    List Recommendation :=
  trends.filterMap (fun e =>
    if 0 < e.2.change_percentage then
      some { coin := e.1
             change_percentage := e.2.change_percentage
             volatility := e.2.volatility
             average_price := e.2.average_price }
    else none)

/-- The tier string printed for a recommended coin in
Crypto.suggest_investments: High potential for growth! when
change_percentage > 5, else Moderate growth expected. -/
def tierOf (change : ℚ) : String :=
  if 5 < change then "High potential for growth!" else "Moderate growth expected."

/-- The trends mapping the whole pipeline produces from raw payloads:
get_prices then analyze_trends. -/
noncomputable def pipelineTrends
    (payloads : List (String × Option (List (Int × ℚ)))) :
    List (String × TrendMetrics) :=
  analyzeTrends (getPrices payloads)

/-- The recommendations the whole pipeline produces from raw payloads. -/
noncomputable def pipelineRecs
    (payloads : List (String × Option (List (Int × ℚ)))) :
    List Recommendation :=
  suggestInvestments (pipelineTrends payloads)

/-- A concrete two-coin batch whose first coin has first price 0: a
division-by-zero input for the change percentage. -/
def zeroFirstBatch : List (String × List (Int × ℚ)) :=
  [("zz", [((0 : Int), (0 : ℚ)), ((86400000 : Int), (5 : ℚ))]),
   ("bb", [((0 : Int), (2 : ℚ)), ((86400000 : Int), (4 : ℚ))])]

/-- A concrete payload batch with one coin lacking a prices field, one
coin with an empty sample list and one healthy coin. -/
def noDataBatch : List (String × Option (List (Int × ℚ))) :=
  [("aa", none), ("bb", some []),
   ("cc", some [((0 : Int), (1 : ℚ)), ((86400000 : Int), (2 : ℚ))])]

/-- The four-point example price column of the spec and the unit tests:
97077.22, 99807.41, 97779.31, 97343.92. -/
def examplePrices : List ℚ :=
  [9707722 / 100, 9980741 / 100, 9777931 / 100, 9734392 / 100]

/-- Modelled from the spec: the sample standard deviation
(Bessel-corrected, divisor n - 1) of a list of values, written from the
words of the spec for comparison with the volatility of the code. -/
noncomputable def specSampleStdDev (l : List ℚ) : ℝ :=
  Real.sqrt (((l.map (fun x => (x - l.sum / l.length) ^ 2)).sum /
    ((l.length : ℚ) - 1) : ℚ))

/-- C5: the tier is the high one exactly when change_percentage exceeds 5;
at exactly 5 the moderate tier is assigned, at 5.0001 the high one. -/
theorem claim5_tier_boundary :
    (∀ c : ℚ, tierOf c = "High potential for growth!" ↔ 5 < c) ∧
    tierOf 5 = "Moderate growth expected." ∧
    tierOf (50001 / 10000) = "High potential for growth!" := by
  refine ⟨fun c => ?_, by norm_num [tierOf], by norm_num [tierOf]⟩
  unfold tierOf
  split
  · simp_all
  · simp_all

/-- C6: a coin appears in the recommendations exactly when the trends
mapping carries an entry for it whose change_percentage is strictly
positive; a coin whose change_percentage is not positive is never
included. -/
theorem claim6_filter_positive (trends : List (String × TrendMetrics))
    (coin : String) :
    (∃ r ∈ suggestInvestments trends, r.coin = coin) ↔
      (∃ m, (coin, m) ∈ trends ∧ 0 < m.change_percentage) := by
  unfold suggestInvestments
  constructor
  · rintro ⟨r, hr, hcoin⟩
    rw [List.mem_filterMap] at hr
    obtain ⟨e, he, hfe⟩ := hr
    by_cases hpos : 0 < e.2.change_percentage
    · rw [if_pos hpos] at hfe
      refine ⟨e.2, ?_, hpos⟩
      have hc : e.1 = coin := by
        cases hfe; simpa using hcoin
      rw [← hc]
      exact he
    · rw [if_neg hpos] at hfe
      exact absurd hfe (by simp)
  · rintro ⟨m, hm, hpos⟩
    refine ⟨{ coin := coin, change_percentage := m.change_percentage,
              volatility := m.volatility, average_price := m.average_price },
            ?_, rfl⟩
    rw [List.mem_filterMap]
    exact ⟨(coin, m), hm, by simp [hpos]⟩

/-- Mapping a series to its price column commutes with taking the last
row. -/
theorem map_snd_getLastD :
    ∀ s : List (Int × ℚ), s ≠ [] →
      (s.map Prod.snd).getLastD 0 = (s.getLastD (0, 0)).2
  | [_], _ => by simp
  | _ :: b :: u, _ => by
    simpa using map_snd_getLastD (b :: u) (by simp)

/-- C8: for a non-empty date-ascending series whose first price is not 0,
the change percentage of the metrics is
(last price - first price) / first price * 100, first and last taken from
the first and last rows of the series in date order. -/
theorem claim8_change_formula (s : List (Int × ℚ))
    (hne : s ≠ []) (hsorted : (s.map Prod.fst).Pairwise (· < ·))
    (h0 : (s.headI).2 ≠ 0) :
    (analyzeSeries (s.map Prod.snd)).change_percentage =
      ((s.getLastD (0, 0)).2 - (s.headI).2) / (s.headI).2 * 100 := by
  have hhead : (s.map Prod.snd).headI = (s.headI).2 := by
    cases s with
    | nil => simp at hne
    | cons a t => simp
  have hlast := map_snd_getLastD s hne
  simp only [analyzeSeries, changePercentage, firstPrice, lastPrice]
  rw [hhead, hlast]

/-- Witness for C8 at the concrete ascending two-row series
[(0, 4), (1, 6)]: the change percentage is 50. -/
theorem claim8_change_formula_witness :
    ([((0 : Int), (4 : ℚ)), (1, 6)] ≠ []) ∧
      (([((0 : Int), (4 : ℚ)), (1, 6)].map Prod.fst).Pairwise (· < ·)) ∧
      (([((0 : Int), (4 : ℚ)), (1, 6)].headI).2 ≠ 0) ∧
      (analyzeSeries ([((0 : Int), (4 : ℚ)), (1, 6)].map Prod.snd)).change_percentage =
        (([((0 : Int), (4 : ℚ)), (1, 6)].getLastD (0, 0)).2 -
          ([((0 : Int), (4 : ℚ)), (1, 6)].headI).2) /
          ([((0 : Int), (4 : ℚ)), (1, 6)].headI).2 * 100 := by
  refine ⟨by decide, by decide, by decide,
    claim8_change_formula [((0 : Int), (4 : ℚ)), (1, 6)] (by decide) (by decide) (by decide)⟩

/-- Deduplication keeps a subsequence of the rows, in order. -/
theorem dedupLast_sublist : ∀ l : List (Int × ℚ), List.Sublist (dedupLast l) l
  | [] => by simp [dedupLast]
  | e :: rest => by
    unfold dedupLast
    split
    · exact List.Sublist.cons e (dedupLast_sublist rest)
    · exact List.Sublist.cons₂ e (dedupLast_sublist rest)

/-- The dates surviving deduplication are pairwise distinct. -/
theorem dedupLast_dates_nodup :
    ∀ l : List (Int × ℚ), ((dedupLast l).map Prod.fst).Nodup
  | [] => by simp [dedupLast]
  | e :: rest => by
    unfold dedupLast
    split
    · exact dedupLast_dates_nodup rest
    · rename_i hany
      simp only [List.map_cons, List.nodup_cons]
      refine ⟨fun hmem => ?_, dedupLast_dates_nodup rest⟩
      rw [List.mem_map] at hmem
      obtain ⟨q, hq, hq1⟩ := hmem
      have hqr : q ∈ rest := (dedupLast_sublist rest).subset hq
      exact hany (List.any_eq_true.mpr ⟨q, hqr, by simp [hq1]⟩)

/-- On a row list whose dates are already pairwise distinct, deduplication
changes nothing. -/
theorem dedupLast_eq_self :
    ∀ l : List (Int × ℚ), (l.map Prod.fst).Nodup → dedupLast l = l
  | [], _ => rfl
  | e :: rest, h => by
    simp only [List.map_cons, List.nodup_cons] at h
    unfold dedupLast
    rw [if_neg, dedupLast_eq_self rest h.2]
    intro hany
    rw [List.any_eq_true] at hany
    obtain ⟨q, hq, hdec⟩ := hany
    exact h.1 (List.mem_map.mpr ⟨q, hq, of_decide_eq_true hdec⟩)

/-- A row survives deduplication exactly when it is the last row of the
input carrying its date. -/
theorem dedupLast_mem_iff :
    ∀ (l : List (Int × ℚ)) (d : Int) (p : ℚ),
      ((d, p) ∈ dedupLast l ↔
        (l.filter (fun e => decide (e.1 = d))).getLast? = some (d, p))
  | [], d, p => by simp [dedupLast]
  | e :: rest, d, p => by
    unfold dedupLast
    by_cases hany : rest.any (fun q => decide (q.1 = e.1)) = true
    · rw [if_pos hany]
      by_cases hd : e.1 = d
      · have hne : rest.filter (fun q => decide (q.1 = d)) ≠ [] := by
          rw [List.any_eq_true] at hany
          obtain ⟨q, hq, hdec⟩ := hany
          intro hnil
          rw [List.filter_eq_nil_iff] at hnil
          exact hnil q hq (by simp [of_decide_eq_true hdec, hd])
        rw [List.filter_cons_of_pos (by simp [hd])]
        cases hfr : rest.filter (fun q => decide (q.1 = d)) with
        | nil => exact absurd hfr hne
        | cons x xs =>
          rw [List.getLast?_cons_cons]
          rw [dedupLast_mem_iff rest d p, hfr]
      · rw [List.filter_cons_of_neg (by simp [hd])]
        exact dedupLast_mem_iff rest d p
    · rw [if_neg hany]
      by_cases hd : e.1 = d
      · have hfr : rest.filter (fun q => decide (q.1 = d)) = [] := by
          rw [List.filter_eq_nil_iff]
          intro q hq hdec
          exact hany (List.any_eq_true.mpr
            ⟨q, hq, by simp [of_decide_eq_true hdec, hd]⟩)
        rw [List.filter_cons_of_pos (by simp [hd]), hfr]
        simp only [List.getLast?_singleton, List.mem_cons, Option.some_inj]
        constructor
        · rintro (hep | hmem)
          · rw [hep]
          · exfalso
            have hqr : (d, p) ∈ rest := (dedupLast_sublist rest).subset hmem
            rw [List.filter_eq_nil_iff] at hfr
            exact hfr (d, p) hqr (by simp)
        · intro he
          exact Or.inl he.symm
      · rw [List.filter_cons_of_neg (by simp [hd])]
        rw [← dedupLast_mem_iff rest d p]
        simp only [List.mem_cons, or_iff_right_iff_imp]
        intro he
        exact absurd (congrArg Prod.fst he).symm hd

/-- C3: a (date, price) row is in the normalized series exactly when it is
the last raw sample sharing that date, after date conversion: the value
appearing later in the raw input wins, whatever the values are. -/
theorem claim3_last_write_wins (raw : List (Int × ℚ)) (d : Int) (p : ℚ) :
    ((d, p) ∈ normalize raw ↔
      (((raw.map (fun s => (toDate s.1, s.2))).filter
        (fun e => decide (e.1 = d))).getLast? = some (d, p))) :=
  dedupLast_mem_iff _ d p

/-- C4 counterexample: the normalizer never sorts, so raw samples arriving
out of timestamp order yield a series whose dates are not ascending: two
samples on consecutive days given in reverse order keep that reverse
order. -/
theorem claim4_counterexample :
    ¬ ((normalize [((86400000 : Int), (1 : ℚ)), ((0 : Int), (2 : ℚ))]).map
        Prod.fst).Pairwise (· < ·) := by
  decide

/-- C4 amended: for every raw input the dates of the normalized series are
pairwise distinct, the surviving rows keep their input order (the
normalized series is a subsequence of the date-converted input, never a
sorted rearrangement), and the dates are chronologically ascending
whenever the raw samples arrive with nondecreasing dates (in particular
for timestamp-ordered input). -/
theorem claim4_amended (raw : List (Int × ℚ)) :
    ((normalize raw).map Prod.fst).Nodup ∧
      List.Sublist (normalize raw) (raw.map (fun s => (toDate s.1, s.2))) ∧
      ((raw.map (fun s => toDate s.1)).Pairwise (· ≤ ·) →
        ((normalize raw).map Prod.fst).Pairwise (· < ·)) := by
  refine ⟨dedupLast_dates_nodup _, dedupLast_sublist _, fun hmono => ?_⟩
  have hsub : List.Sublist ((normalize raw).map Prod.fst)
      ((raw.map (fun s => (toDate s.1, s.2))).map Prod.fst) :=
    List.Sublist.map Prod.fst (dedupLast_sublist _)
  have hle : ((normalize raw).map Prod.fst).Pairwise (· ≤ ·) := by
    refine List.Pairwise.sublist hsub ?_
    simpa [List.map_map, Function.comp_def] using hmono
  exact (List.Pairwise.and hle (dedupLast_dates_nodup _)).imp
    (fun h => lt_of_le_of_ne h.1 h.2)

/-- Witness for C4 amended at a concrete timestamp-ordered input where the
second date occurs twice: the result has distinct dates, is a subsequence
of the date-converted input, and its dates ascend since the input dates
are nondecreasing. -/
theorem claim4_amended_witness :
    ((normalize [((0 : Int), (2 : ℚ)), ((86400000 : Int), (3 : ℚ)),
        ((90000000 : Int), (4 : ℚ))]).map Prod.fst).Nodup ∧
      List.Sublist
        (normalize [((0 : Int), (2 : ℚ)), ((86400000 : Int), (3 : ℚ)),
          ((90000000 : Int), (4 : ℚ))])
        ([((0 : Int), (2 : ℚ)), ((86400000 : Int), (3 : ℚ)),
          ((90000000 : Int), (4 : ℚ))].map (fun s => (toDate s.1, s.2))) ∧
      (([((0 : Int), (2 : ℚ)), ((86400000 : Int), (3 : ℚ)),
          ((90000000 : Int), (4 : ℚ))].map (fun s => toDate s.1)).Pairwise
            (· ≤ ·) ∧
        ((normalize [((0 : Int), (2 : ℚ)), ((86400000 : Int), (3 : ℚ)),
          ((90000000 : Int), (4 : ℚ))]).map Prod.fst).Pairwise (· < ·)) :=
  ⟨(claim4_amended _).1, (claim4_amended _).2.1,
    by decide, (claim4_amended _).2.2 (by decide)⟩

/-- C10: normalization is idempotent: re-running the normalization on an
already-normalized series (where date conversion is the identity) returns
the series unchanged. -/
theorem claim10_normalize_idempotent (raw : List (Int × ℚ)) :
    normalizeSeries (normalize raw) = normalize raw :=
  dedupLast_eq_self _ (dedupLast_dates_nodup _)

/-- In an association list with pairwise distinct keys, a key determines
its value. -/
theorem mem_eq_of_nodup_keys {α β : Type} :
    ∀ (l : List (α × β)) (k : α) (v w : β),
      (l.map Prod.fst).Nodup → (k, v) ∈ l → (k, w) ∈ l → v = w
  | [], _, _, _, _, hv, _ => absurd hv (by simp)
  | e :: t, k, v, w, hnd, hv, hw => by
    simp only [List.map_cons, List.nodup_cons] at hnd
    rcases List.mem_cons.mp hv with hv1 | hv2
    · rcases List.mem_cons.mp hw with hw1 | hw2
      · rw [← hv1] at hw1
        exact ((Prod.ext_iff.mp hw1).2).symm
      · exfalso
        refine hnd.1 (List.mem_map.mpr ⟨(k, w), hw2, ?_⟩)
        rw [← hv1]
    · rcases List.mem_cons.mp hw with hw1 | hw2
      · exfalso
        refine hnd.1 (List.mem_map.mpr ⟨(k, v), hv2, ?_⟩)
        rw [← hw1]
      · exact mem_eq_of_nodup_keys t k v w hnd.2 hv2 hw2

/-- Every coin with a non-empty series receives its metrics in the
analyze_trends output, whatever its prices are. -/
theorem mem_analyzeTrends (batch : List (String × List (Int × ℚ)))
    (coin : String) (s : List (Int × ℚ))
    (hmem : (coin, s) ∈ batch) (hne : s ≠ []) :
    (coin, analyzeSeries (s.map Prod.snd)) ∈ analyzeTrends batch := by
  unfold analyzeTrends
  rw [List.mem_filterMap]
  exact ⟨(coin, s), hmem, by rw [if_neg hne]⟩

/-- Every recommendation stems from some coin of the trends mapping. -/
theorem rec_coin_mem_trends (trends : List (String × TrendMetrics))
    (r : Recommendation) (hr : r ∈ suggestInvestments trends) :
    r.coin ∈ trends.map Prod.fst := by
  unfold suggestInvestments at hr
  rw [List.mem_filterMap] at hr
  obtain ⟨e, he, hfe⟩ := hr
  by_cases hpos : 0 < e.2.change_percentage
  · rw [if_pos hpos, Option.some_inj] at hfe
    rw [← hfe]
    exact List.mem_map.mpr ⟨e, he, rfl⟩
  · rw [if_neg hpos] at hfe
    exact absurd hfe (by simp)

/-- A coin carrying trend metrics after the pipeline must have delivered a
payload whose normalized series is non-empty. -/
theorem mem_pipelineTrends_keys_imp
    (payloads : List (String × Option (List (Int × ℚ)))) (coin : String)
    (h : coin ∈ (pipelineTrends payloads).map Prod.fst) :
    ∃ raw, (coin, some raw) ∈ payloads ∧ normalize raw ≠ [] := by
  unfold pipelineTrends analyzeTrends getPrices at h
  rw [List.mem_map] at h
  obtain ⟨a, ha, hfst⟩ := h
  rw [List.mem_filterMap] at ha
  obtain ⟨e, he, hfe⟩ := ha
  by_cases hne : e.2 = []
  · rw [if_pos hne] at hfe
    exact absurd hfe (by simp)
  · rw [if_neg hne, Option.some_inj] at hfe
    rw [List.mem_filterMap] at he
    obtain ⟨q, hq, hfq⟩ := he
    obtain ⟨c, o⟩ := q
    cases o with
    | none => exact absurd hfq (by simp)
    | some raw =>
      simp only [Option.some_inj] at hfq
      refine ⟨raw, ?_, ?_⟩
      · have hc : c = coin := by
          rw [← hfst, ← hfe, ← hfq]
        rw [← hc]
        exact hq
      · intro hnil
        apply hne
        rw [← hfq, hnil]

/-- C1 counterexample: a first price of exactly 0 does not make
analyze_trends fail for that coin: in the source the division is a numpy
float division returning an infinity with only a runtime warning, there
is no exception and no error channel, so the coin still receives a
metrics entry (here with total rational division); nothing distinguishes
it from a successful coin. -/
theorem claim1_counterexample :
    "zz" ∈ (analyzeTrends zeroFirstBatch).map Prod.fst := by
  simp [analyzeTrends, zeroFirstBatch]

/-- C1 amended: the batch is indeed never aborted and every other coin
keeps its metrics, but no division-by-zero failure is surfaced either:
every coin with a non-empty series, the zero-first-price coin included,
receives a metrics entry computed from its own series alone. -/
theorem claim1_amended (batch : List (String × List (Int × ℚ)))
    (coin : String) (s : List (Int × ℚ))
    (hmem : (coin, s) ∈ batch) (hne : s ≠ []) :
    (coin, analyzeSeries (s.map Prod.snd)) ∈ analyzeTrends batch :=
  mem_analyzeTrends batch coin s hmem hne

/-- Witness for C1 amended: in the concrete batch whose coin zz has first
price 0, the other coin bb still receives its metrics. -/
theorem claim1_amended_witness :
    (("bb", [((0 : Int), (2 : ℚ)), ((86400000 : Int), (4 : ℚ))]) ∈
        zeroFirstBatch) ∧
      ([((0 : Int), (2 : ℚ)), ((86400000 : Int), (4 : ℚ))] ≠
        ([] : List (Int × ℚ))) ∧
      ("bb", analyzeSeries
          ([((0 : Int), (2 : ℚ)), ((86400000 : Int), (4 : ℚ))].map Prod.snd)) ∈
        analyzeTrends zeroFirstBatch :=
  ⟨by decide, by decide,
    claim1_amended zeroFirstBatch "bb"
      [((0 : Int), (2 : ℚ)), ((86400000 : Int), (4 : ℚ))] (by decide) (by decide)⟩

/-- C7: a coin whose payload is missing or whose sample list normalizes to
the empty series gets no metrics and no recommendation, while every coin
with a non-empty normalized series still receives its metrics: no error
is raised and the batch is never aborted. -/
theorem claim7_skip_no_data
    (payloads : List (String × Option (List (Int × ℚ)))) (coin : String)
    (hbad : (coin, (none : Option (List (Int × ℚ)))) ∈ payloads ∨
      (coin, some ([] : List (Int × ℚ))) ∈ payloads)
    (hnd : (payloads.map Prod.fst).Nodup) :
    coin ∉ (pipelineTrends payloads).map Prod.fst ∧
      (∀ r ∈ pipelineRecs payloads, r.coin ≠ coin) ∧
      (∀ other raw, (other, some raw) ∈ payloads → normalize raw ≠ [] →
        (other, analyzeSeries ((normalize raw).map Prod.snd)) ∈
          pipelineTrends payloads) := by
  have hnotin : coin ∉ (pipelineTrends payloads).map Prod.fst := by
    intro hin
    obtain ⟨raw, hraw, hne⟩ := mem_pipelineTrends_keys_imp payloads coin hin
    rcases hbad with hnone | hempty
    · exact Option.noConfusion
        (mem_eq_of_nodup_keys payloads coin none (some raw) hnd hnone hraw)
    · have : some ([] : List (Int × ℚ)) = some raw :=
        mem_eq_of_nodup_keys payloads coin (some []) (some raw) hnd hempty hraw
      rw [Option.some_inj] at this
      rw [← this] at hne
      exact hne rfl
  refine ⟨hnotin, fun r hr hrc => ?_, fun other raw hmem hne => ?_⟩
  · exact hnotin (hrc ▸ rec_coin_mem_trends _ r hr)
  · refine mem_analyzeTrends _ other (normalize raw) ?_ hne
    unfold getPrices
    rw [List.mem_filterMap]
    exact ⟨(other, some raw), hmem, rfl⟩

/-- Witness for C7 at the concrete payload batch: coin aa has no prices
field, coin bb an empty sample list, coin cc a healthy series; aa is
skipped while the pipeline keeps going. -/
theorem claim7_skip_no_data_witness :
    ((("aa", (none : Option (List (Int × ℚ)))) ∈ noDataBatch ∨
        ("aa", some ([] : List (Int × ℚ))) ∈ noDataBatch) ∧
      (noDataBatch.map Prod.fst).Nodup) ∧
      ("aa" ∉ (pipelineTrends noDataBatch).map Prod.fst ∧
        (∀ r ∈ pipelineRecs noDataBatch, r.coin ≠ "aa") ∧
        (∀ other raw, (other, some raw) ∈ noDataBatch → normalize raw ≠ [] →
          (other, analyzeSeries ((normalize raw).map Prod.snd)) ∈
            pipelineTrends noDataBatch)) :=
  ⟨⟨by decide, by decide⟩,
    claim7_skip_no_data noDataBatch "aa" (by decide) (by decide)⟩

/-- A series of n rows has n - 1 daily changes. -/
theorem dailyChanges_length (prices : List ℚ) :
    (dailyChanges prices).length = prices.length - 1 := by
  unfold dailyChanges
  rw [List.length_zipWith, List.length_tail]
  omega

/-- C2: for every non-empty series the volatility is the Bessel-corrected
sample standard deviation of the daily changes when the series has at
least 3 rows (more than one daily change), and exactly 0 otherwise, in
particular for series of length 1 or 2. -/
theorem claim2_volatility_stddev (prices : List ℚ) (_hne : prices ≠ []) :
    volatility prices =
      if 3 ≤ prices.length then specSampleStdDev (dailyChanges prices)
      else 0 := by
  unfold volatility
  by_cases h3 : 3 ≤ prices.length
  · rw [if_pos (by rw [dailyChanges_length]; omega), if_pos h3]
    unfold specSampleStdDev sampleVar listMean
    rfl
  · rw [if_neg (by rw [dailyChanges_length]; omega), if_neg h3]

/-- Witness for C2 at the three-row series [1, 2, 4], which has two daily
changes. -/
theorem claim2_volatility_stddev_witness :
    (([1, 2, 4] : List ℚ) ≠ []) ∧
      volatility [1, 2, 4] =
        (if 3 ≤ ([1, 2, 4] : List ℚ).length then
          specSampleStdDev (dailyChanges [1, 2, 4])
        else 0) :=
  ⟨by decide, claim2_volatility_stddev [1, 2, 4] (by decide)⟩

/-- C9: on the example prices the analyzer yields a change percentage of
about 0.27 (within 0.005, the two displayed decimals), an average price
of exactly 98001.965 and a volatility of about 0.025 (within 0.0005). -/
theorem claim9_example_metrics :
    |(analyzeSeries examplePrices).change_percentage - 27 / 100| <
        (1 / 200 : ℚ) ∧
      (analyzeSeries examplePrices).average_price = 98001965 / 1000 ∧
      |(analyzeSeries examplePrices).volatility - 1 / 40| < (1 / 2000 : ℝ) := by
  refine ⟨?_, ?_, ?_⟩
  · rw [abs_sub_lt_iff]
    constructor <;>
      norm_num [analyzeSeries, changePercentage, firstPrice, lastPrice,
        examplePrices, List.headI, List.getLastD_cons, List.getLastD_nil]
  · norm_num [analyzeSeries, averagePrice, listMean, examplePrices]
  · have hq1 : sampleVar (dailyChanges examplePrices) < (51 / 2000 : ℚ) ^ 2 := by
      norm_num [sampleVar, dailyChanges, listMean, examplePrices,
        List.zipWith_cons_cons, List.tail_cons]
    have hq2 : (49 / 2000 : ℚ) ^ 2 < sampleVar (dailyChanges examplePrices) := by
      norm_num [sampleVar, dailyChanges, listMean, examplePrices,
        List.zipWith_cons_cons, List.tail_cons]
    have hvol : (analyzeSeries examplePrices).volatility =
        Real.sqrt ((sampleVar (dailyChanges examplePrices) : ℚ) : ℝ) := by
      simp only [analyzeSeries]
      unfold volatility
      rw [if_pos (by rw [dailyChanges_length]; norm_num [examplePrices])]
    have hup : Real.sqrt ((sampleVar (dailyChanges examplePrices) : ℚ) : ℝ) <
        (((51 / 2000 : ℚ)) : ℝ) := by
      rw [Real.sqrt_lt' (by norm_num)]
      rw [show (((51 / 2000 : ℚ)) : ℝ) ^ 2 = (((51 / 2000 : ℚ) ^ 2 : ℚ) : ℝ) by
        push_cast
        ring]
      exact Rat.cast_lt.mpr hq1
    have hdown : (((49 / 2000 : ℚ)) : ℝ) <
        Real.sqrt ((sampleVar (dailyChanges examplePrices) : ℚ) : ℝ) := by
      rw [Real.lt_sqrt (by norm_num)]
      rw [show (((49 / 2000 : ℚ)) : ℝ) ^ 2 = (((49 / 2000 : ℚ) ^ 2 : ℚ) : ℝ) by
        push_cast
        ring]
      exact Rat.cast_lt.mpr hq2
    have he1 : (((51 / 2000 : ℚ)) : ℝ) = 51 / 2000 := by norm_num
    have he2 : (((49 / 2000 : ℚ)) : ℝ) = 49 / 2000 := by norm_num
    rw [hvol, abs_sub_lt_iff]
    constructor <;> linarith

end Crypto
